import Mathlib

/-!
CsvCpp: a verification development for `src/Parser.cpp`.

The decoder (`Parser::ReadEntireFile`, `Parser::RecordStringToRecord`), the
encoder (`Parser::CreateCsvFile`) and the analyser (`Parser::GetStatus`) are
embedded as Lean functions and the properties of the specification are
stated over them.

Modelling conventions.
* A `std::string` is a `List Char`, one list element per C++ `char`.
* `CsvRecord` is the list of its fields, `CsvTable` the list of its records
  (`AddField` and `AddRecord` append at the end, `NumFields` and `NumRecords`
  are the lengths, `operator[]` is indexing).
* The `int` and `uint32_t` indices of the source are natural numbers; a
  line or a table is taken to be shorter than `2^31`, so no index wraps.
  `std::string::npos` is `none`. The section on `RecordStringToRecord` with
  `int` positions drops this convention for the field loop: it keeps the
  32-bit positions of the source, and it is shown to agree with the model
  on natural numbers for the lines of the convention.
* A `while(1)` loop takes a fuel argument and returns `none` when the fuel
  runs out; the entry points supply a fuel that is shown to be enough.
* Opening, reading and writing the file streams is outside the model:
  `ReadEntireFile` starts from the text read from the stream, and
  `CreateCsvFile` returns the text written to a stream that never fails.
-/

namespace CsvCpp

/-- A `std::string`, one element per `char`. -/
abbrev Str := List Char

/-- A record: its fields in order. -/
abbrev CsvRecord := List Str

/-- A table: its records in order. -/
abbrev CsvTable := List CsvRecord

/-! ## `std::string` primitives used by the parser -/

/-- Leftmost match of `pat` in `s`, where `s` is the part of the string that
starts at index `i`: the result is an index into the whole string. -/
def findAux (pat : Str) : Str → Nat → Option Nat
  | [], i => if pat.isPrefixOf [] then some i else none
  | c :: s, i => if pat.isPrefixOf (c :: s) then some i else findAux pat s (i + 1)

/-- The call `s.find(pat, pos)`: the least index `i ≥ pos` at which `pat`
occurs in `s`, and `none` (for `npos`) when there is none. -/
def find (s pat : Str) (pos : Nat) : Option Nat :=
  if pos ≤ s.length then findAux pat (s.drop pos) pos else none

/-- The characters `s[x]` for `a ≤ x < b`, in order: what a loop
`for (x = a; x < b; x++) field += s[x];` appends to an empty `field`. -/
def copyRange (s : Str) (a b : Nat) : Str :=
  (s.take b).drop a

/-! ## `Parser::RecordStringToRecord` -/

/-- The `while(1)` loop of `RecordStringToRecord` (lines 246-303). The state
is `lastPosOfFieldDelimiter`, `firstTime` and `csvRecord`. -/
def recordLoop (fieldDelimiter csvLine : Str) :
    Nat → Nat → Bool → CsvRecord → Option CsvRecord
  | 0, _, _, _ => none
  | fuel + 1, lastPosOfFieldDelimiter, firstTime, csvRecord =>
    let nextPosOfFieldDelimiter :=
      if firstTime then find csvLine fieldDelimiter lastPosOfFieldDelimiter
      else find csvLine fieldDelimiter (lastPosOfFieldDelimiter + 1)
    match nextPosOfFieldDelimiter with
    | none =>
      -- delimiter not found: the last field, then `break`
      some (csvRecord ++
        [copyRange csvLine (lastPosOfFieldDelimiter + 1) csvLine.length])
    | some next =>
      let field :=
        if lastPosOfFieldDelimiter = 0 then
          copyRange csvLine lastPosOfFieldDelimiter next
        else
          copyRange csvLine (lastPosOfFieldDelimiter + 1) next
      recordLoop fieldDelimiter csvLine fuel next false (csvRecord ++ [field])

/-- The function `Parser::RecordStringToRecord(csvLine)` of a parser whose
field delimiter is `fieldDelimiter`. -/
def RecordStringToRecord (fieldDelimiter csvLine : Str) : Option CsvRecord :=
  recordLoop fieldDelimiter csvLine (csvLine.length + 2) 0 true []

/-! ## `Parser::ReadEntireFile` -/

/-- The `while(1)` loop of `ReadEntireFile` (lines 108-148). The state is
`theEntireFile` and `csvTable`. -/
def readLoop (fieldDelimiter recordDelimiter : Str) :
    Nat → Str → CsvTable → Option CsvTable
  | 0, _, _ => none
  | fuel + 1, theEntireFile, csvTable =>
    let found := find theEntireFile recordDelimiter 0
    let csvLine :=
      match found with
      | none => theEntireFile.take theEntireFile.length
      | some i => theEntireFile.take i
    let rest :=
      match found with
      | none => theEntireFile.drop theEntireFile.length
      | some i => theEntireFile.drop (i + recordDelimiter.length)
    if csvLine.isEmpty then
      some csvTable
    else
      match RecordStringToRecord fieldDelimiter csvLine with
      | none => none
      | some csvRecord =>
        readLoop fieldDelimiter recordDelimiter fuel rest (csvTable ++ [csvRecord])

/-- The function `Parser::ReadEntireFile`, from the text `theEntireFile` read
from the input stream on. -/
def ReadEntireFile (fieldDelimiter recordDelimiter theEntireFile : Str) :
    Option CsvTable :=
  readLoop fieldDelimiter recordDelimiter (theEntireFile.length + 1) theEntireFile []

/-! ## `Parser::CreateCsvFile` -/

/-- The inner `for (y = 0; y < NumFields(); y++)` loop of `CreateCsvFile`
(lines 202-216); `k` is the number of iterations left, `NumFields() - y`. -/
def writeFields (fieldDelimiter : Str) (csvRecord : CsvRecord) :
    Nat → Nat → Str → Str
  | 0, _, outputFile => outputFile
  | k + 1, y, outputFile =>
    let outputFile := outputFile ++ csvRecord.getD y []
    let outputFile :=
      if y ≠ csvRecord.length - 1 then outputFile ++ fieldDelimiter else outputFile
    writeFields fieldDelimiter csvRecord k (y + 1) outputFile

/-- The outer `for (x = 0; x < NumRecords(); x++)` loop of `CreateCsvFile`
(lines 199-222); `k` is the number of iterations left, `NumRecords() - x`. -/
def writeRecords (fieldDelimiter recordDelimiter : Str) (csvTable : CsvTable) :
    Nat → Nat → Str → Str
  | 0, _, outputFile => outputFile
  | k + 1, x, outputFile =>
    let csvRecord := csvTable.getD x []
    let outputFile := writeFields fieldDelimiter csvRecord csvRecord.length 0 outputFile
    writeRecords fieldDelimiter recordDelimiter csvTable k (x + 1)
      (outputFile ++ recordDelimiter)

/-- The function `Parser::CreateCsvFile`: the text written to the output
stream. -/
def CreateCsvFile (fieldDelimiter recordDelimiter : Str) (csvTable : CsvTable) : Str :=
  writeRecords fieldDelimiter recordDelimiter csvTable csvTable.length 0 []

/-- The encoding in the words of the specification: each record is its
fields joined by the field delimiter, and every record is followed by the
record delimiter. -/
def encodeSpec (fieldDelimiter recordDelimiter : Str) (table : CsvTable) : Str :=
  (table.map (fun record => fieldDelimiter.intercalate record ++ recordDelimiter)).flatten

/-! ## `Parser::GetStatus` -/

/-- The type `Parser::Status`: every member is present or absent. -/
structure Status where
  isWellformed : Option Bool := none
  allRecordsHaveEqualNumFields : Option Bool := none
  numRecords : Option Nat := none
  numFields : Option Nat := none
  allFieldsNumeral : Option Bool := none
  deriving DecidableEq, Repr

/-- The `for (x = 1; x < NumRecords(); x++)` loop of `GetStatus` (lines
328-344); `k` is the number of iterations left, `NumRecords() - x`. -/
def equalNumFieldsLoop (csvTable : CsvTable) : Nat → Nat → Nat → Status → Status
  | 0, _, _, status => status
  | k + 1, x, prevNumFields, status =>
    if (csvTable.getD x []).length ≠ prevNumFields then
      -- unequal number of fields: both members are set, then `break`
      { status with allRecordsHaveEqualNumFields := some false, isWellformed := some false }
    else
      equalNumFieldsLoop csvTable k (x + 1) (csvTable.getD x []).length status

/-- The numeral test of one field (lines 389-417). `stod s` is the outcome
of `std::stod(s, &pos)`: `none` when it throws `invalid_argument` or
`out_of_range`, and `some pos` otherwise. -/
def fieldIsNumeral (stod : Str → Option Nat) (field : Str) : Bool :=
  match stod field with
  | none => false
  | some pos => pos == field.length

/-- The inner `for (y = 0; y < NumFields(); y++)` loop of the numeral check;
the result is `false` when the `goto END_OF_NUMERAL_CHECK` is taken. -/
def numeralFieldsLoop (stod : Str → Option Nat) (csvRecord : CsvRecord) : Nat → Nat → Bool
  | 0, _ => true
  | k + 1, y =>
    if fieldIsNumeral stod (csvRecord.getD y []) then numeralFieldsLoop stod csvRecord k (y + 1)
    else false

/-- The outer `for (x = 0; x < NumRecords(); x++)` loop of the numeral check
(lines 384-419). -/
def numeralRecordsLoop (stod : Str → Option Nat) (csvTable : CsvTable) :
    Nat → Nat → Status → Status
  | 0, _, status => status
  | k + 1, x, status =>
    if numeralFieldsLoop stod (csvTable.getD x []) (csvTable.getD x []).length 0 then
      numeralRecordsLoop stod csvTable k (x + 1) status
    else
      { status with allFieldsNumeral := some false }

/-- The function `Parser::GetStatus`, with the library function `std::stod`
as a parameter. -/
def GetStatus (stod : Str → Option Nat) (csvTable : CsvTable) : Status :=
  let status : Status := {}
  let status := { status with isWellformed := some true }
  -- all records have an equal number of fields
  let status :=
    if csvTable.length > 0 then
      let status :=
        equalNumFieldsLoop csvTable (csvTable.length - 1) 1 (csvTable.getD 0 []).length status
      match status.allRecordsHaveEqualNumFields with
      | none => { status with allRecordsHaveEqualNumFields := some true }
      | some _ => status
    else status
  -- number of records and number of fields
  let status := { status with numRecords := some csvTable.length }
  let status :=
    match status.numRecords with
    | some 0 => { status with isWellformed := some false }
    | _ => status
  let status :=
    match status.allRecordsHaveEqualNumFields with
    | some true => { status with numFields := some (csvTable.getD 0 []).length }
    | _ => status
  -- all fields are numeral
  let status := { status with allFieldsNumeral := some true }
  numeralRecordsLoop stod csvTable csvTable.length 0 status

/-! ## `Parser::ReadRecord` -/

/-- The call `std::getline(myIfStream, csvLine)` on a stream that holds
`text`: `csvLine` is made of the characters before the first newline, or of
all of them when there is no newline. -/
def getline (text : Str) : Str :=
  text.takeWhile (fun ch => ch != '\n')

/-- The function `Parser::ReadRecord` (lines 57-79), from the text of the file
on. The member `recordDelimiter` of the parser is an argument here as in the
other functions, and as in the source it is not read. -/
def ReadRecord (fieldDelimiter _recordDelimiter theFile : Str) : Option CsvRecord :=
  RecordStringToRecord fieldDelimiter (getline theFile)

/-- The record-line of `ReadRecord` in the words of the specification: the
part of the source before the first record delimiter, or the whole source
when there is none. -/
def firstLineSpec (recordDelimiter source : Str) : Str :=
  match find source recordDelimiter 0 with
  | none => source
  | some i => source.take i

/-! ## `Parser::RecordStringToRecord` with the `int` positions of the source

The positions `lastPosOfFieldDelimiter`, `nextPosOfFieldDelimiter` and `x`
of the source are of type `int`, and the result of `find`, a `size_t`, is
stored in one. The definitions of this section keep that: `int` has 32 bits,
`size_t` has 64 bits, a `size_t` is converted to `int` modulo `2^32`, and an
`int` is converted to `size_t` modulo `2^64`. Reading the string at an index
outside it, and adding 1 to the largest `int`, are undefined. -/

/-- The `int` that a `size_t` value is converted to. -/
def toInt32 (n : Nat) : Int :=
  if n % 2 ^ 32 < 2 ^ 31 then ((n % 2 ^ 32 : Nat) : Int)
  else ((n % 2 ^ 32 : Nat) : Int) - 2 ^ 32

/-- The `size_t` that an `int` value is converted to. -/
def toSizeT (i : Int) : Nat :=
  (i % 2 ^ 64).toNat

/-- The constant `std::string::npos`, the largest `size_t`. -/
def npos : Nat := 2 ^ 64 - 1

/-- The call `s.find(pat, pos)` with its result as a `size_t`. -/
def findSizeT (s pat : Str) (pos : Nat) : Nat :=
  match find s pat pos with
  | none => npos
  | some i => i

/-- The outcome of a loop of the source: it is still running when the fuel
is used up, it did something undefined, or it ended with a record. -/
inductive Outcome where
  | outOfFuel : Outcome
  | undefined : Outcome
  | done (csvRecord : CsvRecord) : Outcome
  deriving DecidableEq, Repr

/-- The expression `csvLine[x]` for an `int` index `x`: the character at
`x`, the null character at the length of the string, and `none` (undefined)
outside that range. -/
def charAt (csvLine : Str) (x : Int) : Option Char :=
  if x < 0 then none
  else if x.toNat < csvLine.length then some (csvLine.getD x.toNat (Char.ofNat 0))
  else if x.toNat = csvLine.length then some (Char.ofNat 0)
  else none

/-- The body of a loop `for (...; x < b; x++) field += csvLine[x];`, with
`k` iterations left. -/
def copyLoop (csvLine : Str) : Nat → Int → Str → Option Str
  | 0, _, field => some field
  | k + 1, x, field =>
    match charAt csvLine x with
    | none => none
    | some ch => copyLoop csvLine k (x + 1) (field ++ [ch])

/-- The loop `for (x = a; x < b; x++) field += csvLine[x];` on an empty
`field`, with `int` positions: it runs `b - a` times when `a < b` and not at
all otherwise. -/
def copyChars (csvLine : Str) (a b : Int) : Option Str :=
  copyLoop csvLine (b - a).toNat a []

/-- The `while(1)` loop of `RecordStringToRecord` (lines 246-303) with `int`
positions. -/
def recordLoop32 (fieldDelimiter csvLine : Str) :
    Nat → Int → Bool → CsvRecord → Outcome
  | 0, _, _, _ => Outcome.outOfFuel
  | fuel + 1, lastPosOfFieldDelimiter, firstTime, csvRecord =>
    if lastPosOfFieldDelimiter = 2 ^ 31 - 1 then
      -- every path evaluates `lastPosOfFieldDelimiter + 1`, which overflows
      Outcome.undefined
    else
      let nextPosOfFieldDelimiter : Int :=
        if firstTime then
          toInt32 (findSizeT csvLine fieldDelimiter (toSizeT lastPosOfFieldDelimiter))
        else
          toInt32 (findSizeT csvLine fieldDelimiter (toSizeT (lastPosOfFieldDelimiter + 1)))
      if nextPosOfFieldDelimiter = toInt32 npos then
        match copyChars csvLine (lastPosOfFieldDelimiter + 1) (toInt32 csvLine.length) with
        | none => Outcome.undefined
        | some field => Outcome.done (csvRecord ++ [field])
      else
        let field :=
          if lastPosOfFieldDelimiter = 0 then
            copyChars csvLine lastPosOfFieldDelimiter nextPosOfFieldDelimiter
          else
            copyChars csvLine (lastPosOfFieldDelimiter + 1) nextPosOfFieldDelimiter
        match field with
        | none => Outcome.undefined
        | some field =>
          recordLoop32 fieldDelimiter csvLine fuel nextPosOfFieldDelimiter false
            (csvRecord ++ [field])

/-- The function `Parser::RecordStringToRecord(csvLine)` with `int`
positions, run with the given fuel. -/
def RecordStringToRecord32 (fieldDelimiter csvLine : Str) (fuel : Nat) : Outcome :=
  recordLoop32 fieldDelimiter csvLine fuel 0 true []

/-! ## Facts about `find` -/

theorem isPrefixOf_cons_of_not_mem {pat : Str} (hp : pat ≠ []) {a : Char} (ha : a ∉ pat)
    (s : Str) : pat.isPrefixOf (a :: s) = false := by
  cases pat with
  | nil => exact absurd rfl hp
  | cons p ps =>
    have hne : p ≠ a := fun h => ha (h ▸ List.mem_cons_self _ _)
    simp [List.isPrefixOf, hne]

theorem isPrefixOf_append_self (pat rest : Str) : pat.isPrefixOf (pat ++ rest) = true := by
  induction pat with
  | nil => simp [List.isPrefixOf]
  | cons p ps ih => simp [List.isPrefixOf]

theorem findAux_of_isPrefixOf {pat s : Str} (h : pat.isPrefixOf s = true) (i : Nat) :
    findAux pat s i = some i := by
  cases s with
  | nil => simp [findAux, h]
  | cons c s => simp [findAux, h]

/-- In `line ++ pat ++ rest`, where no character of `line` occurs in `pat`,
the leftmost match of `pat` is right after `line`. -/
theorem findAux_append {pat : Str} (hp : pat ≠ []) (line rest : Str)
    (hl : ∀ c ∈ line, c ∉ pat) (i : Nat) :
    findAux pat (line ++ (pat ++ rest)) i = some (i + line.length) := by
  induction line generalizing i with
  | nil => simpa using findAux_of_isPrefixOf (isPrefixOf_append_self pat rest) i
  | cons a line ih =>
    have ha : a ∉ pat := hl a (List.mem_cons_self _ _)
    have ht : ∀ c ∈ line, c ∉ pat := fun c hc => hl c (List.mem_cons_of_mem _ hc)
    simp only [List.cons_append, findAux, isPrefixOf_cons_of_not_mem hp ha,
      List.length_cons]
    rw [if_neg (by simp)]
    show findAux pat (line ++ (pat ++ rest)) (i + 1) = _
    rw [ih ht (i + 1)]
    congr 1
    omega

theorem findAux_bounds {pat s : Str} {i n : Nat} (h : findAux pat s i = some n) :
    i ≤ n ∧ n ≤ i + s.length := by
  induction s generalizing i with
  | nil =>
    simp only [findAux] at h
    split at h
    · simp only [Option.some.injEq] at h
      subst h
      simp
    · exact absurd h (by simp)
  | cons c s ih =>
    simp only [findAux] at h
    split at h
    · simp only [Option.some.injEq] at h
      subst h
      simp
    · have := ih h
      simp only [List.length_cons]
      omega

theorem find_bounds {s pat : Str} {pos n : Nat} (h : find s pat pos = some n) :
    pos ≤ n ∧ n ≤ s.length := by
  unfold find at h
  split at h
  · have := findAux_bounds h
    simp only [List.length_drop] at this
    omega
  · exact absurd h (by simp)

/-- After the first iteration the field loop ends: the position of the last
delimiter grows in every iteration and stays within the line. -/
theorem recordLoop_isSome (fieldDelimiter csvLine : Str) (fuel last : Nat)
    (csvRecord : CsvRecord) (hlast : last ≤ csvLine.length)
    (hfuel : csvLine.length + 1 ≤ fuel + last) :
    ∃ result, recordLoop fieldDelimiter csvLine fuel last false csvRecord = some result := by
  induction fuel generalizing last csvRecord with
  | zero => omega
  | succ fuel ih =>
    rw [recordLoop]
    simp only [Bool.false_eq_true, if_false]
    split
    · exact ⟨_, rfl⟩
    · rename_i next hsome
      have hb := find_bounds hsome
      exact ih next _ hb.2 (by omega)

/-- The function `RecordStringToRecord` returns a record for every line and
every field delimiter. -/
theorem RecordStringToRecord_isSome (fieldDelimiter csvLine : Str) :
    ∃ csvRecord, RecordStringToRecord fieldDelimiter csvLine = some csvRecord := by
  rw [RecordStringToRecord, recordLoop]
  simp only [if_true]
  split
  · exact ⟨_, rfl⟩
  · rename_i next hsome
    have hb := find_bounds hsome
    exact recordLoop_isSome _ _ _ next _ hb.2 (by omega)

/-- One iteration of the record loop. -/
theorem readLoop_step (fieldDelimiter recordDelimiter : Str) (fuel : Nat)
    (theEntireFile : Str) (csvTable : CsvTable) :
    readLoop fieldDelimiter recordDelimiter (fuel + 1) theEntireFile csvTable =
      match find theEntireFile recordDelimiter 0 with
      | none =>
        if theEntireFile = [] then some csvTable
        else
          match RecordStringToRecord fieldDelimiter theEntireFile with
          | none => none
          | some csvRecord =>
            readLoop fieldDelimiter recordDelimiter fuel [] (csvTable ++ [csvRecord])
      | some i =>
        if theEntireFile.take i = [] then some csvTable
        else
          match RecordStringToRecord fieldDelimiter (theEntireFile.take i) with
          | none => none
          | some csvRecord =>
            readLoop fieldDelimiter recordDelimiter fuel
              (theEntireFile.drop (i + recordDelimiter.length)) (csvTable ++ [csvRecord]) := by
  rw [readLoop]
  cases find theEntireFile recordDelimiter 0 with
  | none => simp [List.isEmpty_iff]
  | some i => simp [List.isEmpty_iff]

/-- The record loop ends: every iteration that does not stop removes at
least one character from the text. -/
theorem readLoop_isSome (fieldDelimiter recordDelimiter : Str) (fuel : Nat)
    (theEntireFile : Str) (csvTable : CsvTable) (hfuel : theEntireFile.length < fuel) :
    ∃ result,
      readLoop fieldDelimiter recordDelimiter fuel theEntireFile csvTable = some result := by
  induction fuel generalizing theEntireFile csvTable with
  | zero => omega
  | succ fuel ih =>
    rw [readLoop_step]
    split
    · split
      · exact ⟨_, rfl⟩
      · rename_i he
        obtain ⟨r, hr⟩ := RecordStringToRecord_isSome fieldDelimiter theEntireFile
        rw [hr]
        have hpos : 0 < theEntireFile.length := List.length_pos.mpr he
        exact ih [] _ (by simp only [List.length_nil]; omega)
    · rename_i i hsome
      split
      · exact ⟨_, rfl⟩
      · rename_i he
        obtain ⟨r, hr⟩ := RecordStringToRecord_isSome fieldDelimiter (theEntireFile.take i)
        rw [hr]
        have hpos : 0 < (theEntireFile.take i).length := List.length_pos.mpr he
        simp only [List.length_take] at hpos
        apply ih
        simp only [List.length_drop]
        omega

/-- The function `ReadEntireFile` returns a table for every text. -/
theorem ReadEntireFile_isSome (fieldDelimiter recordDelimiter theEntireFile : Str) :
    ∃ csvTable,
      ReadEntireFile fieldDelimiter recordDelimiter theEntireFile = some csvTable :=
  readLoop_isSome _ _ _ _ _ (Nat.lt_succ_self _)

theorem toInt32_npos : toInt32 npos = -1 := by decide

theorem toInt32_of_lt {n : Nat} (h : n < 2 ^ 31) : toInt32 n = (n : Int) := by
  unfold toInt32
  split <;> omega

theorem toSizeT_natCast {n : Nat} (h : n < 2 ^ 64) : toSizeT (n : Int) = n := by
  unfold toSizeT
  omega

/-- In a line of `n` characters `a` followed by the delimiter character `c`,
the search for `c` from a position within the `a`s finds index `n`. -/
theorem find_replicate_append {a c : Char} (hac : a ≠ c) (n pos : Nat) (hpos : pos ≤ n)
    (rest : Str) :
    find (List.replicate n a ++ ([c] ++ rest)) [c] pos = some n := by
  have hle : pos ≤ (List.replicate n a ++ ([c] ++ rest)).length := by
    simp only [List.length_append, List.length_replicate]
    omega
  have hno : ∀ ch ∈ List.replicate (n - pos) a, ch ∉ [c] := by
    intro ch hch hmem
    rw [List.mem_singleton] at hmem
    exact hac ((List.eq_of_mem_replicate hch).symm.trans hmem)
  rw [find, if_pos hle, List.drop_append_of_le_length (by simpa using hpos),
    List.drop_replicate, findAux_append (by simp) _ rest hno pos, List.length_replicate]
  congr 1
  omega

theorem charAt_replicate (a : Char) (n : Nat) (rest : Str) (x : Int) (hx : 0 ≤ x)
    (hlt : x.toNat < n) : charAt (List.replicate n a ++ rest) x = some a := by
  have hlen : x.toNat < (List.replicate n a ++ rest).length := by
    simp only [List.length_append, List.length_replicate]
    omega
  have hget : (List.replicate n a ++ rest).getD x.toNat (Char.ofNat 0) = a := by
    rw [List.getD_eq_getElem _ _ hlen, List.getElem_append_left (by simpa using hlt)]
    simp
  rw [charAt, if_neg (by omega), if_pos hlen, hget]

/-- Copying `k` characters from within the `a`s gives `k` times `a`. -/
theorem copyLoop_replicate (a : Char) (n : Nat) (rest : Str) (k : Nat) :
    ∀ (x : Int) (field : Str), 0 ≤ x → x.toNat + k ≤ n →
      copyLoop (List.replicate n a ++ rest) k x field =
        some (field ++ List.replicate k a) := by
  induction k with
  | zero =>
    intro x field _ _
    simp [copyLoop]
  | succ k ih =>
    intro x field hx hk
    rw [copyLoop, charAt_replicate a n rest x hx (by omega)]
    simp only
    rw [ih (x + 1) _ (by omega) (by omega)]
    simp [List.replicate_succ]

theorem charAt_natCast (csvLine : Str) (x : Nat) (hx : x < csvLine.length) :
    charAt csvLine (x : Int) = some csvLine[x] := by
  have hnn : ¬ ((x : Int) < 0) := by omega
  have hto : ((x : Int)).toNat = x := by omega
  rw [charAt, if_neg hnn, hto, if_pos hx, List.getD_eq_getElem _ _ hx]

/-- Within the line, the copy loop with `int` positions copies the characters
of the range. -/
theorem copyLoop_natCast (csvLine : Str) (k : Nat) :
    ∀ (x : Nat) (field : Str), x + k ≤ csvLine.length →
      copyLoop csvLine k (x : Int) field = some (field ++ (csvLine.drop x).take k) := by
  induction k with
  | zero =>
    intro x field _
    simp [copyLoop]
  | succ k ih =>
    intro x field hk
    have hx : x < csvLine.length := by omega
    have hcast : ((x : Int) + 1) = ((x + 1 : Nat) : Int) := by omega
    rw [copyLoop, charAt_natCast csvLine x hx]
    simp only
    rw [hcast, ih (x + 1) _ (by omega), List.drop_eq_getElem_cons hx]
    simp only [List.take_succ_cons, List.append_assoc, List.singleton_append]

theorem copyChars_natCast (csvLine : Str) (a b : Nat) (hb : b ≤ csvLine.length) :
    copyChars csvLine (a : Int) (b : Int) = some (copyRange csvLine a b) := by
  by_cases hab : a ≤ b
  · have hk : ((b : Int) - (a : Int)).toNat = b - a := by omega
    rw [copyChars, hk, copyLoop_natCast csvLine (b - a) a [] (by omega), copyRange,
      List.drop_take]
    simp
  · have hk : ((b : Int) - (a : Int)).toNat = 0 := by omega
    have hnil : copyRange csvLine a b = [] := by
      rw [copyRange]
      apply List.drop_eq_nil_of_le
      simp only [List.length_take]
      omega
    rw [copyChars, hk, hnil]
    rfl

/-- On a line within the convention (its length plus one is below `2^31`),
the field loop with `int` positions does what the field loop on natural
numbers does. -/
theorem recordLoop32_eq_recordLoop (fieldDelimiter csvLine : Str)
    (hlen : csvLine.length + 1 < 2 ^ 31) (fuel : Nat) :
    ∀ (last : Nat) (firstTime : Bool) (csvRecord : CsvRecord), last ≤ csvLine.length →
      recordLoop32 fieldDelimiter csvLine fuel (last : Int) firstTime csvRecord =
        match recordLoop fieldDelimiter csvLine fuel last firstTime csvRecord with
        | none => Outcome.outOfFuel
        | some result => Outcome.done result := by
  induction fuel with
  | zero => intro _ _ _ _; rfl
  | succ fuel ih =>
    intro last firstTime csvRecord hlast
    have hguard : ¬ ((last : Int) = 2 ^ 31 - 1) := by omega
    have hsize : toSizeT (last : Int) = last := toSizeT_natCast (by omega)
    have hsize1 : toSizeT ((last : Int) + 1) = last + 1 := by
      have hcast : ((last : Int) + 1) = ((last + 1 : Nat) : Int) := by omega
      rw [hcast]
      exact toSizeT_natCast (by omega)
    have hcast1 : ((last : Int) + 1) = ((last + 1 : Nat) : Int) := by omega
    have hlength : toInt32 csvLine.length = (csvLine.length : Int) :=
      toInt32_of_lt (by omega)
    have hzero : ((last : Int) = 0) ↔ last = 0 := by omega
    rw [recordLoop32, recordLoop, if_neg hguard]
    simp only [hsize, hsize1]
    have key : ∀ found : Option Nat,
        (∀ i, found = some i → i ≤ csvLine.length) →
        (if toInt32 (match found with | none => npos | some i => i) = toInt32 npos then
          match copyChars csvLine ((last : Int) + 1) (toInt32 csvLine.length) with
          | none => Outcome.undefined
          | some field => Outcome.done (csvRecord ++ [field])
        else
          match
            (if (last : Int) = 0 then
              copyChars csvLine (last : Int)
                (toInt32 (match found with | none => npos | some i => i))
            else
              copyChars csvLine ((last : Int) + 1)
                (toInt32 (match found with | none => npos | some i => i))) with
          | none => Outcome.undefined
          | some field =>
            recordLoop32 fieldDelimiter csvLine fuel
              (toInt32 (match found with | none => npos | some i => i)) false
              (csvRecord ++ [field])) =
        match
          (match found with
            | none =>
              some (csvRecord ++ [copyRange csvLine (last + 1) csvLine.length])
            | some next =>
              recordLoop fieldDelimiter csvLine fuel next false
                (csvRecord ++ [if last = 0 then copyRange csvLine last next
                  else copyRange csvLine (last + 1) next])) with
        | none => Outcome.outOfFuel
        | some result => Outcome.done result := by
      intro found hfound
      cases found with
      | none =>
        simp only [if_true]
        rw [hcast1, hlength, copyChars_natCast csvLine (last + 1) csvLine.length (le_refl _)]
      | some i =>
        have hi : i ≤ csvLine.length := hfound i rfl
        have hnext : toInt32 i = (i : Int) := toInt32_of_lt (by omega)
        have hne : ¬ ((i : Int) = toInt32 npos) := by
          rw [toInt32_npos]
          omega
        simp only [hnext]
        rw [if_neg hne]
        by_cases h0 : last = 0
        · rw [if_pos (hzero.mpr h0), if_pos h0, copyChars_natCast csvLine last i hi]
          exact ih i false _ hi
        · rw [if_neg (fun h => h0 (hzero.mp h)), if_neg h0, hcast1,
            copyChars_natCast csvLine (last + 1) i hi]
          exact ih i false _ hi
    cases firstTime with
    | true =>
      simp only [if_true, findSizeT]
      exact key (find csvLine fieldDelimiter last) (fun i hi => (find_bounds hi).2)
    | false =>
      simp only [Bool.false_eq_true, if_false, findSizeT]
      exact key (find csvLine fieldDelimiter (last + 1)) (fun i hi => (find_bounds hi).2)

/-- On a line within the convention, `RecordStringToRecord` with `int`
positions ends, with the record that the model on natural numbers returns. -/
theorem RecordStringToRecord32_eq (fieldDelimiter csvLine : Str)
    (hlen : csvLine.length + 1 < 2 ^ 31) :
    ∃ csvRecord, RecordStringToRecord fieldDelimiter csvLine = some csvRecord ∧
      RecordStringToRecord32 fieldDelimiter csvLine (csvLine.length + 2) =
        Outcome.done csvRecord := by
  obtain ⟨csvRecord, h⟩ := RecordStringToRecord_isSome fieldDelimiter csvLine
  refine ⟨csvRecord, h, ?_⟩
  have := recordLoop32_eq_recordLoop fieldDelimiter csvLine hlen (csvLine.length + 2) 0 true []
    (Nat.zero_le _)
  rw [RecordStringToRecord] at h
  rw [h] at this
  exact this

/-- The loop that never ends: when the only delimiter of a line is at an index
`n` that is 5 modulo `2^32`, every search from index 6 finds it at `n`, which
is stored as 5, and an empty field is added. -/
theorem recordLoop32_stuck {a c : Char} (hac : a ≠ c) (n : Nat) (hmod : n % 2 ^ 32 = 5)
    (hn : 6 ≤ n) (fuel : Nat) :
    ∀ csvRecord : CsvRecord,
      recordLoop32 [c] (List.replicate n a ++ [c]) fuel 5 false csvRecord =
        Outcome.outOfFuel := by
  have hfind : find (List.replicate n a ++ [c]) [c] 6 = some n := by
    simpa using find_replicate_append hac n 6 hn []
  have hnext : toInt32 n = 5 := by
    unfold toInt32
    split <;> omega
  have hcopy : copyChars (List.replicate n a ++ [c]) (5 + 1) 5 = some [] := rfl
  induction fuel with
  | zero => intro _; rfl
  | succ fuel ih =>
    intro csvRecord
    have hsize : toSizeT (5 + 1) = 6 := by decide
    rw [recordLoop32]
    simp only [Bool.false_eq_true, if_false, hsize, findSizeT, hfind, hnext, toInt32_npos,
      hcopy]
    rw [if_neg (by decide), if_neg (by decide), if_neg (by decide)]
    exact ih _

/-- The first iteration on such a line copies five characters and stores 5
as the position of the delimiter. -/
theorem recordLoop32_wrap_first {a c : Char} (hac : a ≠ c) (n : Nat)
    (hmod : n % 2 ^ 32 = 5) (hn : 6 ≤ n) (fuel : Nat) :
    recordLoop32 [c] (List.replicate n a ++ [c]) (fuel + 1) 0 true [] =
      recordLoop32 [c] (List.replicate n a ++ [c]) fuel 5 false [List.replicate 5 a] := by
  have hfind : find (List.replicate n a ++ [c]) [c] 0 = some n := by
    simpa using find_replicate_append hac n 0 (Nat.zero_le _) []
  have hnext : toInt32 n = 5 := by
    unfold toInt32
    split <;> omega
  have hcopy : copyChars (List.replicate n a ++ [c]) 0 5 = some (List.replicate 5 a) := by
    have h := copyLoop_replicate a n [c] 5 0 [] (le_refl _) (by simp; omega)
    simpa [copyChars] using h
  have hsize : toSizeT 0 = 0 := by decide
  rw [recordLoop32]
  simp only [if_true, hsize, findSizeT, hfind, hnext, toInt32_npos, hcopy]
  rw [if_neg (by decide), if_neg (by decide)]
  simp

/-- A line whose only delimiter is at an index `n` that is `2^31` modulo
`2^32`: the position is stored as `-2^31`, the next search starts beyond the
line, and the copy of the last field reads the line at a negative index. -/
theorem recordLoop32_negative_index {a c : Char} (hac : a ≠ c) (n : Nat)
    (hmod : n % 2 ^ 32 = 2 ^ 31) (hlen : n < 2 ^ 32) (b : Char) (fuel : Nat) :
    recordLoop32 [c] (List.replicate n a ++ [c, b]) (fuel + 2) 0 true [] =
      Outcome.undefined := by
  have hn : n = 2 ^ 31 := by omega
  have hfind : find (List.replicate n a ++ [c, b]) [c] 0 = some n := by
    simpa using find_replicate_append hac n 0 (Nat.zero_le _) [b]
  have hnext : toInt32 n = -2 ^ 31 := by
    unfold toInt32
    split <;> omega
  have hcopy0 : copyChars (List.replicate n a ++ [c, b]) 0 (-2 ^ 31) = some [] := rfl
  have hsize0 : toSizeT 0 = 0 := by decide
  have hsize : toSizeT (-2 ^ 31 + 1) = 2 ^ 64 - 2 ^ 31 + 1 := by decide
  have hbeyond : find (List.replicate n a ++ [c, b]) [c] (2 ^ 64 - 2 ^ 31 + 1) = none := by
    rw [find, if_neg]
    simp only [List.length_append, List.length_replicate, List.length_cons, List.length_nil]
    omega
  have hlength : toInt32 (List.replicate n a ++ [c, b]).length = -2 ^ 31 + 2 := by
    simp only [List.length_append, List.length_replicate, List.length_cons, List.length_nil]
    unfold toInt32
    split <;> omega
  have hcopy : copyChars (List.replicate n a ++ [c, b]) (-2 ^ 31 + 1) (-2 ^ 31 + 2)
      = none := by
    have hk : ((-2 ^ 31 + 2 : Int) - (-2 ^ 31 + 1)).toNat = 1 := by decide
    rw [copyChars, hk, copyLoop, charAt, if_pos (by decide)]
  have hsecond : ∀ csvRecord : CsvRecord,
      recordLoop32 [c] (List.replicate n a ++ [c, b]) (fuel + 1) (-2 ^ 31) false csvRecord =
        Outcome.undefined := by
    intro csvRecord
    rw [recordLoop32, if_neg (by decide)]
    simp only [Bool.false_eq_true, if_false, hsize, findSizeT, hbeyond, toInt32_npos,
      if_true, hlength, hcopy]
  rw [recordLoop32]
  simp only [if_true, hsize0, findSizeT, hfind, hnext, toInt32_npos, hcopy0]
  rw [if_neg (by decide), if_neg (by decide)]
  exact hsecond _

/-! ## The encoder -/

/-- The inner loop of the encoder appends the remaining fields, joined by
the field delimiter. -/
theorem writeFields_eq (fieldDelimiter : Str) (csvRecord : CsvRecord) (k y : Nat)
    (outputFile : Str) (hk : k + y = csvRecord.length) :
    writeFields fieldDelimiter csvRecord k y outputFile =
      outputFile ++ fieldDelimiter.intercalate (csvRecord.drop y) := by
  induction k generalizing y outputFile with
  | zero =>
    have hy : csvRecord.length ≤ y := by omega
    simp [writeFields, List.drop_eq_nil_of_le hy, List.intercalate]
  | succ k ih =>
    have hy : y < csvRecord.length := by omega
    have hd : csvRecord.drop y = csvRecord[y] :: csvRecord.drop (y + 1) :=
      List.drop_eq_getElem_cons hy
    have hg : csvRecord.getD y [] = csvRecord[y] := List.getD_eq_getElem _ _ hy
    simp only [writeFields, hg]
    rw [ih (y + 1) _ (by omega), hd]
    by_cases hlast : y = csvRecord.length - 1
    · have hnil : csvRecord.drop (y + 1) = [] := List.drop_eq_nil_of_le (by omega)
      rw [if_neg (not_not.mpr hlast), hnil]
      simp [List.intercalate]
    · have hne : csvRecord.drop (y + 1) ≠ [] := by
        intro h
        have := List.drop_eq_nil_iff.mp h
        omega
      obtain ⟨a, l, hal⟩ := List.exists_cons_of_ne_nil hne
      rw [if_pos hlast, hal]
      simp [List.intercalate]

theorem encodeSpec_cons (fieldDelimiter recordDelimiter : Str) (record : CsvRecord)
    (table : CsvTable) :
    encodeSpec fieldDelimiter recordDelimiter (record :: table) =
      fieldDelimiter.intercalate record ++ recordDelimiter ++
        encodeSpec fieldDelimiter recordDelimiter table := by
  simp [encodeSpec]

/-- The outer loop of the encoder appends the encoding of the remaining
records. -/
theorem writeRecords_eq (fieldDelimiter recordDelimiter : Str) (csvTable : CsvTable)
    (k x : Nat) (outputFile : Str) (hk : k + x = csvTable.length) :
    writeRecords fieldDelimiter recordDelimiter csvTable k x outputFile =
      outputFile ++ encodeSpec fieldDelimiter recordDelimiter (csvTable.drop x) := by
  induction k generalizing x outputFile with
  | zero =>
    have hx : csvTable.length ≤ x := by omega
    simp [writeRecords, encodeSpec, List.drop_eq_nil_of_le hx]
  | succ k ih =>
    have hx : x < csvTable.length := by omega
    have hd : csvTable.drop x = csvTable[x] :: csvTable.drop (x + 1) :=
      List.drop_eq_getElem_cons hx
    have hg : csvTable.getD x [] = csvTable[x] := List.getD_eq_getElem _ _ hx
    simp only [writeRecords, hg]
    rw [ih (x + 1) _ (by omega), writeFields_eq _ _ _ _ _ (by simp), hd, encodeSpec_cons]
    simp

/-- The encoder computes the encoding of the specification. -/
theorem CreateCsvFile_eq (fieldDelimiter recordDelimiter : Str) (csvTable : CsvTable) :
    CreateCsvFile fieldDelimiter recordDelimiter csvTable =
      encodeSpec fieldDelimiter recordDelimiter csvTable := by
  rw [CreateCsvFile, writeRecords_eq _ _ _ _ _ _ (by simp)]
  simp

theorem intercalate_cons_eq (fieldDelimiter : Str) (first : Str) (others : CsvRecord) :
    fieldDelimiter.intercalate (first :: others) =
      first ++ (others.map (fun field => fieldDelimiter ++ field)).flatten := by
  induction others generalizing first with
  | nil => simp [List.intercalate]
  | cons b l ih =>
    have := ih b
    simp only [List.intercalate, List.intersperse, List.flatten_cons, List.map_cons]
      at this ⊢
    rw [this]
    simp

/-! ## Encoding, then decoding -/

theorem numeralRecordsLoop_isWellformed (stod : Str → Option Nat) (csvTable : CsvTable)
    (k x : Nat) (status : Status) :
    (numeralRecordsLoop stod csvTable k x status).isWellformed = status.isWellformed := by
  induction k generalizing x with
  | zero => rfl
  | succ k ih =>
    simp only [numeralRecordsLoop]
    split
    · exact ih (x + 1)
    · rfl

theorem numeralRecordsLoop_allRecordsHaveEqualNumFields (stod : Str → Option Nat)
    (csvTable : CsvTable) (k x : Nat) (status : Status) :
    (numeralRecordsLoop stod csvTable k x status).allRecordsHaveEqualNumFields
      = status.allRecordsHaveEqualNumFields := by
  induction k generalizing x with
  | zero => rfl
  | succ k ih =>
    simp only [numeralRecordsLoop]
    split
    · exact ih (x + 1)
    · rfl

/-- The field-count loop leaves the status alone when every record from
index `x` on has `prevNumFields` fields, and otherwise sets both members to
`false`. -/
theorem equalNumFieldsLoop_eq (csvTable : CsvTable) (k x prevNumFields : Nat)
    (status : Status) (hk : k + x = csvTable.length) :
    equalNumFieldsLoop csvTable k x prevNumFields status =
      if ∀ r ∈ csvTable.drop x, r.length = prevNumFields then status
      else { status with allRecordsHaveEqualNumFields := some false,
                         isWellformed := some false } := by
  induction k generalizing x with
  | zero =>
    have hx : csvTable.length ≤ x := by omega
    simp [equalNumFieldsLoop, List.drop_eq_nil_of_le hx]
  | succ k ih =>
    have hx : x < csvTable.length := by omega
    have hd : csvTable.drop x = csvTable[x] :: csvTable.drop (x + 1) :=
      List.drop_eq_getElem_cons hx
    have hg : csvTable.getD x [] = csvTable[x] := List.getD_eq_getElem _ _ hx
    simp only [equalNumFieldsLoop, hg, hd, List.forall_mem_cons]
    by_cases h : csvTable[x].length = prevNumFields
    · rw [h, ih (x + 1) (by omega)]
      simp
    · simp [h]



theorem numeralRecordsLoop_numRecords (stod : Str → Option Nat) (csvTable : CsvTable)
    (k x : Nat) (status : Status) :
    (numeralRecordsLoop stod csvTable k x status).numRecords = status.numRecords := by
  induction k generalizing x with
  | zero => rfl
  | succ k ih =>
    simp only [numeralRecordsLoop]
    split
    · exact ih (x + 1)
    · rfl

theorem numeralRecordsLoop_numFields (stod : Str → Option Nat) (csvTable : CsvTable)
    (k x : Nat) (status : Status) :
    (numeralRecordsLoop stod csvTable k x status).numFields = status.numFields := by
  induction k generalizing x with
  | zero => rfl
  | succ k ih =>
    simp only [numeralRecordsLoop]
    split
    · exact ih (x + 1)
    · rfl

/-- The status members that `GetStatus` computes from the shape of a table
with a first record. -/
theorem GetStatus_cons (stod : Str → Option Nat) (first : CsvRecord) (others : CsvTable) :
    (GetStatus stod (first :: others)).isWellformed =
        some (decide (∀ r ∈ others, r.length = first.length)) ∧
      (GetStatus stod (first :: others)).allRecordsHaveEqualNumFields =
        some (decide (∀ r ∈ others, r.length = first.length)) ∧
      (GetStatus stod (first :: others)).numRecords = some (others.length + 1) ∧
      (GetStatus stod (first :: others)).numFields =
        if ∀ r ∈ others, r.length = first.length then some first.length else none := by
  simp only [GetStatus, numeralRecordsLoop_isWellformed,
    numeralRecordsLoop_allRecordsHaveEqualNumFields, numeralRecordsLoop_numRecords,
    numeralRecordsLoop_numFields]
  simp only [List.length_cons, Nat.add_sub_cancel, List.getD_cons_zero, gt_iff_lt,
    Nat.zero_lt_succ, if_true]
  rw [equalNumFieldsLoop_eq _ _ _ _ _ (by simp)]
  have hdrop : List.drop 1 (first :: others) = others := rfl
  rw [hdrop]
  by_cases h : ∀ r ∈ others, r.length = first.length
  · rw [if_pos h, if_pos h, decide_eq_true h]
    exact ⟨rfl, rfl, rfl, rfl⟩
  · rw [if_neg h, if_neg h, decide_eq_false h]
    exact ⟨rfl, rfl, rfl, rfl⟩

/-- The status members that `GetStatus` computes from the shape of the table
without records. -/
theorem GetStatus_nil (stod : Str → Option Nat) :
    (GetStatus stod []).isWellformed = some false ∧
      (GetStatus stod []).allRecordsHaveEqualNumFields = none ∧
      (GetStatus stod []).numRecords = some 0 ∧
      (GetStatus stod []).numFields = none :=
  ⟨rfl, rfl, rfl, rfl⟩

theorem fieldIsNumeral_iff (stod : Str → Option Nat) (field : Str) :
    fieldIsNumeral stod field = true ↔ stod field = some field.length := by
  unfold fieldIsNumeral
  cases stod field with
  | none => simp
  | some pos => simp

/-- The inner loop of the numeral check tells whether every field from index
`y` on is a numeral. -/
theorem numeralFieldsLoop_eq (stod : Str → Option Nat) (csvRecord : CsvRecord) (k y : Nat)
    (hk : k + y = csvRecord.length) :
    numeralFieldsLoop stod csvRecord k y =
      decide (∀ f ∈ csvRecord.drop y, stod f = some f.length) := by
  induction k generalizing y with
  | zero =>
    have hy : csvRecord.length ≤ y := by omega
    simp [numeralFieldsLoop, List.drop_eq_nil_of_le hy]
  | succ k ih =>
    have hy : y < csvRecord.length := by omega
    have hd : csvRecord.drop y = csvRecord[y] :: csvRecord.drop (y + 1) :=
      List.drop_eq_getElem_cons hy
    have hg : csvRecord.getD y [] = csvRecord[y] := List.getD_eq_getElem _ _ hy
    simp only [numeralFieldsLoop, hg, hd, List.forall_mem_cons]
    by_cases h : stod csvRecord[y] = some csvRecord[y].length
    · rw [if_pos ((fieldIsNumeral_iff _ _).mpr h), ih (y + 1) (by omega)]
      simp [h]
    · rw [if_neg (fun hh => h ((fieldIsNumeral_iff _ _).mp hh))]
      simp [h]

/-- The outer loop of the numeral check sets `allFieldsNumeral` to `false`
when some field of a record from index `x` on is not a numeral, and leaves it
alone otherwise. -/
theorem numeralRecordsLoop_allFieldsNumeral (stod : Str → Option Nat) (csvTable : CsvTable)
    (k x : Nat) (status : Status) (hk : k + x = csvTable.length) :
    (numeralRecordsLoop stod csvTable k x status).allFieldsNumeral =
      if ∀ r ∈ csvTable.drop x, ∀ f ∈ r, stod f = some f.length then status.allFieldsNumeral
      else some false := by
  induction k generalizing x with
  | zero =>
    have hx : csvTable.length ≤ x := by omega
    simp [numeralRecordsLoop, List.drop_eq_nil_of_le hx]
  | succ k ih =>
    have hx : x < csvTable.length := by omega
    have hd : csvTable.drop x = csvTable[x] :: csvTable.drop (x + 1) :=
      List.drop_eq_getElem_cons hx
    have hg : csvTable.getD x [] = csvTable[x] := List.getD_eq_getElem _ _ hx
    simp only [numeralRecordsLoop, hg, hd, List.forall_mem_cons]
    rw [numeralFieldsLoop_eq _ _ _ _ (by simp), List.drop_zero]
    by_cases h : ∀ f ∈ csvTable[x], stod f = some f.length
    · rw [if_pos (decide_eq_true h), ih (x + 1) (by omega)]
      by_cases hrest : ∀ r ∈ csvTable.drop (x + 1), ∀ f ∈ r, stod f = some f.length
      · rw [if_pos hrest, if_pos ⟨h, hrest⟩]
      · rw [if_neg hrest, if_neg (fun hh => hrest hh.2)]
    · rw [if_neg (by simpa using h)]
      exact (if_neg (fun hh => h hh.1)).symm

/-- Claim C9: `GetStatus` always sets `isWellformed`, and sets it to `true`
exactly when the table has at least one record and any two records have the
same number of fields. -/
theorem GetStatus_isWellformed (stod : Str → Option Nat) (csvTable : CsvTable) :
    (GetStatus stod csvTable).isWellformed =
      some (decide (csvTable ≠ [] ∧
        ∀ r ∈ csvTable, ∀ r' ∈ csvTable, r.length = r'.length)) := by
  cases csvTable with
  | nil => simp [GetStatus, numeralRecordsLoop_isWellformed]
  | cons r t =>
    simp only [GetStatus, numeralRecordsLoop_isWellformed]
    simp only [List.length_cons, Nat.add_sub_cancel, List.getD_cons_zero, gt_iff_lt,
      Nat.zero_lt_succ, if_true]
    rw [equalNumFieldsLoop_eq _ _ _ _ _ (by simp)]
    by_cases h : ∀ r' ∈ List.drop 1 (r :: t), r'.length = r.length
    · have h2 : ∀ a ∈ r :: t, ∀ b ∈ r :: t, a.length = b.length := by
        have h3 : ∀ a ∈ r :: t, a.length = r.length := by
          intro a ha
          rcases List.mem_cons.mp ha with rfl | ha
          · rfl
          · exact h a (by simpa using ha)
        intro a ha b hb
        rw [h3 a ha, h3 b hb]
      rw [if_pos h, decide_eq_true (And.intro (List.cons_ne_nil r t) h2)]
    · have h2 : ¬ ∀ a ∈ r :: t, ∀ b ∈ r :: t, a.length = b.length := by
        intro h3
        apply h
        intro a ha
        exact h3 a (List.mem_cons_of_mem _ (by simpa using ha)) r (List.mem_cons_self _ _)
      rw [if_neg h, decide_eq_false (fun hh => h2 hh.2)]

/-- Claim C10: `GetStatus` leaves `allRecordsHaveEqualNumFields` absent exactly
for the table with no record; for a table with a first record it is present,
and `true` exactly when every record has as many fields as the first one. -/
theorem GetStatus_allRecordsHaveEqualNumFields (stod : Str → Option Nat)
    (csvTable : CsvTable) :
    ((GetStatus stod csvTable).allRecordsHaveEqualNumFields = none ↔ csvTable.length = 0) ∧
    (GetStatus stod csvTable).allRecordsHaveEqualNumFields =
      match csvTable with
      | [] => none
      | first :: _ => some (decide (∀ r ∈ csvTable, r.length = first.length)) := by
  cases csvTable with
  | nil => simp [GetStatus, numeralRecordsLoop_allRecordsHaveEqualNumFields]
  | cons r t =>
    have key : (GetStatus stod (r :: t)).allRecordsHaveEqualNumFields =
        some (decide (∀ a ∈ r :: t, a.length = r.length)) := by
      simp only [GetStatus, numeralRecordsLoop_allRecordsHaveEqualNumFields]
      simp only [List.length_cons, Nat.add_sub_cancel, List.getD_cons_zero, gt_iff_lt,
        Nat.zero_lt_succ, if_true]
      rw [equalNumFieldsLoop_eq _ _ _ _ _ (by simp)]
      by_cases h : ∀ r' ∈ List.drop 1 (r :: t), r'.length = r.length
      · have h3 : ∀ a ∈ r :: t, a.length = r.length := by
          intro a ha
          rcases List.mem_cons.mp ha with rfl | ha
          · rfl
          · exact h a (by simpa using ha)
        rw [if_pos h, decide_eq_true h3]
      · have h3 : ¬ ∀ a ∈ r :: t, a.length = r.length := by
          intro h3
          apply h
          intro a ha
          exact h3 a (List.mem_cons_of_mem _ (by simpa using ha))
        rw [if_neg h, decide_eq_false h3]
    refine ⟨?_, key⟩
    rw [key]
    simp

/-- Claim C8: the text written by `CreateCsvFile` is the concatenation, over
the records in order, of the fields joined by the field delimiter followed
by the record delimiter; the empty table gives the empty text, a record
without fields contributes the record delimiter alone, and a record with
fields is written as its first field, then each further field preceded by
the field delimiter, then the record delimiter. -/
theorem CreateCsvFile_eq_encodeSpec (fieldDelimiter recordDelimiter : Str)
    (csvTable : CsvTable) :
    CreateCsvFile fieldDelimiter recordDelimiter csvTable =
        encodeSpec fieldDelimiter recordDelimiter csvTable ∧
      CreateCsvFile fieldDelimiter recordDelimiter [] = [] ∧
      (∀ (front back : CsvTable),
        CreateCsvFile fieldDelimiter recordDelimiter (front ++ [[]] ++ back) =
          CreateCsvFile fieldDelimiter recordDelimiter front ++ recordDelimiter ++
            CreateCsvFile fieldDelimiter recordDelimiter back) ∧
      (∀ (front : CsvTable) (first : Str) (others : CsvRecord),
        CreateCsvFile fieldDelimiter recordDelimiter (front ++ [first :: others]) =
          CreateCsvFile fieldDelimiter recordDelimiter front ++ first ++
            (others.map (fun field => fieldDelimiter ++ field)).flatten ++
            recordDelimiter) := by
  refine ⟨CreateCsvFile_eq _ _ _, rfl, ?_, ?_⟩
  · intro front back
    simp [CreateCsvFile_eq, encodeSpec, List.intercalate]
  · intro front first others
    simp [CreateCsvFile_eq, encodeSpec, intercalate_cons_eq]

/-- Claim C2, failing input: the line `abc` has no `,`, and
`RecordStringToRecord` returns the single field `bc`, not `abc`: the copy of
the last field starts at index `lastPosOfFieldDelimiter + 1 = 1`. -/
theorem RecordStringToRecord_no_delimiter_drops_first :
    RecordStringToRecord ",".toList "abc".toList = some ["bc".toList] ∧
      RecordStringToRecord ",".toList "abc".toList ≠ some ["abc".toList] := by
  decide

/-- Claim C3, failing input: the line `,a,b` begins with the delimiter, and
`RecordStringToRecord` returns the fields ``, `,a`, `b`: the second field
keeps the delimiter, because `lastPosOfFieldDelimiter == 0` is taken to mean
the first field. The split on `,` is ``, `a`, `b`. -/
theorem RecordStringToRecord_leading_delimiter :
    RecordStringToRecord ",".toList ",a,b".toList =
        some [[], ",a".toList, "b".toList] ∧
      RecordStringToRecord ",".toList ",a,b".toList ≠
        some [[], "a".toList, "b".toList] := by
  decide

/-- Claim C4, failing input: with the field delimiter `::` the line
`a::b::c` gives the fields `a`, `:b`, `:c`: the copy of a field starts one
character after the delimiter position, whatever the delimiter length. -/
theorem RecordStringToRecord_two_character_delimiter :
    RecordStringToRecord "::".toList "a::b::c".toList =
        some ["a".toList, ":b".toList, ":c".toList] ∧
      RecordStringToRecord "::".toList "a::b::c".toList ≠
        some ["a".toList, "b".toList, "c".toList] := by
  decide

/-- Claim C5, failing input: decoding `a,b`, two newlines, `c,d` gives the
single record of `a,b`: the empty record-line ends the loop, and `c,d` is
never read. -/
theorem ReadEntireFile_stops_at_empty_line :
    ReadEntireFile ",".toList "\n".toList "a,b\n\nc,d".toList =
        some [["a".toList, "b".toList]] ∧
      RecordStringToRecord ",".toList "c,d".toList = some ["c".toList, "d".toList] := by
  decide

/-- Claim C11: the `numFields` of the status is present exactly when the
table has at least one record and any two records have the same number of
fields; when it is present with value `n`, every record has `n` fields. -/
theorem GetStatus_numFields (stod : Str → Option Nat) (csvTable : CsvTable) :
    ((GetStatus stod csvTable).numFields.isSome = true ↔
        (csvTable ≠ [] ∧ ∀ r ∈ csvTable, ∀ r' ∈ csvTable, r.length = r'.length)) ∧
      (∀ n, (GetStatus stod csvTable).numFields = some n →
        ∀ r ∈ csvTable, r.length = n) := by
  cases csvTable with
  | nil =>
    rw [(GetStatus_nil stod).2.2.2]
    simp
  | cons first others =>
    rw [(GetStatus_cons stod first others).2.2.2]
    by_cases h : ∀ r ∈ others, r.length = first.length
    · have hall : ∀ r ∈ first :: others, r.length = first.length := by
        intro r hr
        rcases List.mem_cons.mp hr with rfl | hr
        · rfl
        · exact h r hr
      rw [if_pos h]
      refine ⟨⟨fun _ => ⟨List.cons_ne_nil _ _, ?_⟩, fun _ => rfl⟩, ?_⟩
      · intro a ha b hb
        rw [hall a ha, hall b hb]
      · intro n hn r hr
        rw [Option.some.injEq] at hn
        rw [← hn]
        exact hall r hr
    · rw [if_neg h]
      refine ⟨⟨fun hs => by simp at hs, fun hh => ?_⟩, fun n hn => by simp at hn⟩
      exact absurd (fun r hr => hh.2 r (List.mem_cons_of_mem _ hr) first
        (List.mem_cons_self _ _)) h

theorem GetStatus_numFields_witness :
    (GetStatus (fun _ => none) [["a".toList, "b".toList], ["c".toList, "d".toList]]).numFields
        = some 2 ∧
      ∀ r ∈ ([["a".toList, "b".toList], ["c".toList, "d".toList]] : CsvTable),
        r.length = 2 :=
  ⟨by decide,
    (GetStatus_numFields (fun _ => none)
      [["a".toList, "b".toList], ["c".toList, "d".toList]]).2 2 (by decide)⟩

/-- Claim C12: `GetStatus` always sets `allFieldsNumeral`, and sets it to
`true` exactly when, for every field of every record, `std::stod` does not
throw and the position it returns is the length of the field. -/
theorem GetStatus_allFieldsNumeral (stod : Str → Option Nat) (csvTable : CsvTable) :
    (GetStatus stod csvTable).allFieldsNumeral =
      some (decide (∀ r ∈ csvTable, ∀ f ∈ r, stod f = some f.length)) := by
  simp only [GetStatus]
  rw [numeralRecordsLoop_allFieldsNumeral _ _ _ _ _ (by simp), List.drop_zero]
  by_cases h : ∀ r ∈ csvTable, ∀ f ∈ r, stod f = some f.length
  · rw [if_pos h, decide_eq_true h]
  · rw [if_neg h, decide_eq_false h]

/-- The examples of claim C12, with a parse function that agrees with
`std::stod` on the fields used: it throws on `x`, and reads all of `1`,
`2.5`, `3` and `4`. -/
theorem GetStatus_allFieldsNumeral_witness :
    (GetStatus (fun s => if s = "x".toList then none else some s.length)
        [["1".toList, "2.5".toList], ["3".toList, "x".toList]]).allFieldsNumeral
        = some false ∧
      (GetStatus (fun s => if s = "x".toList then none else some s.length)
        [["1".toList, "2.5".toList], ["3".toList, "4".toList]]).allFieldsNumeral
        = some true ∧
      (GetStatus (fun s => if s = "x".toList then none else some s.length)
        [[], []]).allFieldsNumeral = some true :=
  ⟨(GetStatus_allFieldsNumeral _ _).trans (by decide),
    (GetStatus_allFieldsNumeral _ _).trans (by decide),
    (GetStatus_allFieldsNumeral _ _).trans (by decide)⟩

/-- Claim C13: two tables with the same number of records and the same
number of fields in corresponding records get the same `isWellformed`,
`allRecordsHaveEqualNumFields`, `numFields` and `numRecords`, whatever the
fields are and whatever `std::stod` says about them. -/
theorem GetStatus_shape_only (stod stod' : Str → Option Nat) (csvTable csvTable' : CsvTable)
    (hshape : csvTable.map List.length = csvTable'.map List.length) :
    (GetStatus stod csvTable).isWellformed = (GetStatus stod' csvTable').isWellformed ∧
      (GetStatus stod csvTable).allRecordsHaveEqualNumFields =
        (GetStatus stod' csvTable').allRecordsHaveEqualNumFields ∧
      (GetStatus stod csvTable).numFields = (GetStatus stod' csvTable').numFields ∧
      (GetStatus stod csvTable).numRecords = (GetStatus stod' csvTable').numRecords := by
  match csvTable, csvTable', hshape with
  | [], [], _ => exact ⟨rfl, rfl, rfl, rfl⟩
  | [], _ :: _, h => simp at h
  | _ :: _, [], h => simp at h
  | first :: others, first' :: others', h =>
    simp only [List.map_cons, List.cons.injEq] at h
    obtain ⟨hfirst, hothers⟩ := h
    have hlen : others.length = others'.length := by
      have := congrArg List.length hothers
      simpa using this
    have hiff : (∀ r ∈ others, r.length = first.length) ↔
        (∀ r ∈ others', r.length = first'.length) := by
      have h1 : (∀ r ∈ others, r.length = first.length) ↔
          ∀ n ∈ others.map List.length, n = first.length := by simp
      have h2 : (∀ r ∈ others', r.length = first'.length) ↔
          ∀ n ∈ others'.map List.length, n = first'.length := by simp
      rw [h1, h2, hothers, hfirst]
    obtain ⟨a1, a2, a3, a4⟩ := GetStatus_cons stod first others
    obtain ⟨b1, b2, b3, b4⟩ := GetStatus_cons stod' first' others'
    rw [a1, a2, a3, a4, b1, b2, b3, b4, hlen]
    by_cases hc : ∀ r ∈ others, r.length = first.length
    · have hc' := hiff.mp hc
      rw [decide_eq_true hc, decide_eq_true hc', if_pos hc, if_pos hc', hfirst]
      exact ⟨rfl, rfl, rfl, rfl⟩
    · have hc' : ¬ ∀ r ∈ others', r.length = first'.length := fun hh => hc (hiff.mpr hh)
      rw [decide_eq_false hc, decide_eq_false hc', if_neg hc, if_neg hc']
      exact ⟨rfl, rfl, rfl, rfl⟩

theorem GetStatus_shape_only_witness :
    (GetStatus (fun s => some s.length) [["1".toList, "2".toList], ["3".toList]]).isWellformed
        = (GetStatus (fun _ => none) [["a".toList, "b".toList], ["c".toList]]).isWellformed ∧
      (GetStatus (fun s => some s.length)
          [["1".toList, "2".toList], ["3".toList]]).allRecordsHaveEqualNumFields
        = (GetStatus (fun _ => none)
          [["a".toList, "b".toList], ["c".toList]]).allRecordsHaveEqualNumFields ∧
      (GetStatus (fun s => some s.length) [["1".toList, "2".toList], ["3".toList]]).numFields
        = (GetStatus (fun _ => none) [["a".toList, "b".toList], ["c".toList]]).numFields ∧
      (GetStatus (fun s => some s.length) [["1".toList, "2".toList], ["3".toList]]).numRecords
        = (GetStatus (fun _ => none) [["a".toList, "b".toList], ["c".toList]]).numRecords :=
  GetStatus_shape_only (fun s => some s.length) (fun _ => none)
    [["1".toList, "2".toList], ["3".toList]] [["a".toList, "b".toList], ["c".toList]]
    (by decide)

/-- In the model on natural numbers, that is for lines within the convention
on their length, both loops end: for every text and all delimiters the record
loop of `ReadEntireFile` ends with a table, and for every line the field loop
of `RecordStringToRecord` ends with a record. -/
theorem decoding_is_total (fieldDelimiter recordDelimiter theEntireFile csvLine : Str) :
    (∃ csvTable, ReadEntireFile fieldDelimiter recordDelimiter theEntireFile = some csvTable) ∧
      (∃ csvRecord, RecordStringToRecord fieldDelimiter csvLine = some csvRecord) :=
  ⟨ReadEntireFile_isSome _ _ _, RecordStringToRecord_isSome _ _⟩

/-- Claim C14, failing inputs, with the `int` positions of the source and
the field delimiter `,`. On the line of `2^32 + 5` characters `a` followed by
`,`, the position `2^32 + 5` of the delimiter is stored as 5, every later
search from index 6 finds the same delimiter, and the field loop is still
running after any number of iterations. On the line of `2^31` characters `a`
followed by `,b`, the position is stored as `-2^31` and the copy of the last
field reads the line at a negative index. -/
theorem RecordStringToRecord32_not_total :
    (∀ fuel, RecordStringToRecord32 [','] (List.replicate (2 ^ 32 + 5) 'a' ++ [',']) fuel =
        Outcome.outOfFuel) ∧
      (∀ fuel,
        RecordStringToRecord32 [','] (List.replicate (2 ^ 31) 'a' ++ [',', 'b']) (fuel + 2) =
          Outcome.undefined) := by
  constructor
  · intro fuel
    cases fuel with
    | zero => simp [RecordStringToRecord32, recordLoop32]
    | succ fuel =>
      rw [RecordStringToRecord32,
        recordLoop32_wrap_first (by decide) (2 ^ 32 + 5) (by norm_num) (by norm_num) fuel]
      exact recordLoop32_stuck (by decide) (2 ^ 32 + 5) (by norm_num) (by norm_num) fuel _
  · intro fuel
    rw [RecordStringToRecord32]
    exact recordLoop32_negative_index (by decide) (2 ^ 31) (by norm_num) (by norm_num) 'b' fuel

/-- Claim C16: decoding the empty text gives the table without records,
whatever the delimiters are. -/
theorem ReadEntireFile_empty (fieldDelimiter recordDelimiter : Str) :
    ReadEntireFile fieldDelimiter recordDelimiter [] = some [] := by
  rw [ReadEntireFile, readLoop_step]
  cases find [] recordDelimiter 0 with
  | none => simp
  | some i => simp

/-- Claim C17, failing input: with the record delimiter `;`, field delimiter
`,` and the source `a,b;c,d`, `ReadRecord` returns the fields `a`, `b;c`,
`d`: `std::getline` ends the line at a newline, not at the record delimiter
of the parser. The part of the source before the first `;` is `a,b`, whose
record is `a`, `b`. -/
theorem ReadRecord_ignores_recordDelimiter :
    ReadRecord ",".toList ";".toList "a,b;c,d".toList =
        some ["a".toList, "b;c".toList, "d".toList] ∧
      firstLineSpec ";".toList "a,b;c,d".toList = "a,b".toList ∧
      RecordStringToRecord ",".toList (firstLineSpec ";".toList "a,b;c,d".toList) =
        some ["a".toList, "b".toList] := by
  decide

end CsvCpp
